import Mathlib

/-!
Verification of the virtual filesystem core of `fuse_file_access_monitor`
(src/fs.rs), shallowly embedded in Lean 4.

Machine integers (`u64`, `u32`, `usize`, non-negative `i64` values) are
modelled as `Nat`; byte buffers as `List Nat`; the real on-disk filesystem
that `std::fs` reads is modelled as an explicit environment.  Panics of the
Rust code (out-of-range slicing) are modelled as an explicit `panic`
outcome, and the FUSE reply objects as explicit outcome types.
-/

/-- Mirrors `enum Data` (fs.rs): content is either a backing file path or an
in-memory byte buffer. -/
inductive Data where
  | FilePath (path : String)
  | Memory (data : List Nat)
deriving DecidableEq, Repr

mutual
/-- Mirrors `struct Entry` (fs.rs): name, content source, inode, and kind. -/
inductive Entry where
  | mk (name : String) (full_path : Data) (inode : Nat) (info : EntryInfo)

/-- Mirrors `enum EntryInfo` (fs.rs): a Directory with ordered children, or a
File holding its size in bytes. -/
inductive EntryInfo where
  | Directory (entries : List Entry)
  | File (size : Nat)
end

def Entry.name : Entry → String
  | .mk n _ _ _ => n

def Entry.full_path : Entry → Data
  | .mk _ p _ _ => p

def Entry.inode : Entry → Nat
  | .mk _ _ i _ => i

def Entry.info : Entry → EntryInfo
  | .mk _ _ _ i => i

@[simp] theorem Entry.name_mk (n : String) (p : Data) (i : Nat) (f : EntryInfo) :
    (Entry.mk n p i f).name = n := rfl

@[simp] theorem Entry.full_path_mk (n : String) (p : Data) (i : Nat) (f : EntryInfo) :
    (Entry.mk n p i f).full_path = p := rfl

@[simp] theorem Entry.inode_mk (n : String) (p : Data) (i : Nat) (f : EntryInfo) :
    (Entry.mk n p i f).inode = i := rfl

@[simp] theorem Entry.info_mk (n : String) (p : Data) (i : Nat) (f : EntryInfo) :
    (Entry.mk n p i f).info = f := rfl

/-- Mirrors `EntryInfo::is_dir` (fs.rs). -/
def EntryInfo.is_dir : EntryInfo → Bool
  | .Directory _ => true
  | .File _ => false

/-- Mirrors `EntryInfo::is_file` (fs.rs). -/
def EntryInfo.is_file : EntryInfo → Bool
  | .Directory _ => false
  | .File _ => true

mutual
/-- Mirrors `Entry::find_ino_internal` (fs.rs): first scan the direct children
for a matching inode, then descend into each Directory child in order. -/
def find_ino_internal (directory : List Entry) (ino : Nat) : Option Entry :=
  match directory.find? (fun e => e.inode == ino) with
  | some result => some result
  | none => find_ino_descend directory ino
termination_by (sizeOf directory, 1)

/-- The second pass of `Entry::find_ino_internal`: the
`filter_map(...).next()` over Directory children, recursing in order. -/
def find_ino_descend (directory : List Entry) (ino : Nat) : Option Entry :=
  match directory with
  | [] => none
  | .mk _ _ _ (.File _) :: es => find_ino_descend es ino
  | .mk _ _ _ (.Directory cs) :: es =>
    match find_ino_internal cs ino with
    | some r => some r
    | none => find_ino_descend es ino
termination_by (sizeOf directory, 0)
end

/-- Mirrors `Entry::find_ino` (fs.rs): the read-only inode resolver; note the
asymmetric root handling (`ino == 1` returns `self` regardless of the stored
inode). -/
def Entry.find_ino (e : Entry) (ino : Nat) : Option Entry :=
  if ino == 1 then some e
  else
    match e.info with
    | .Directory contents => find_ino_internal contents ino
    | .File _ => none

/-- Mirrors `Entry::find_ino_mut_internal` (fs.rs): for each child in order,
non-matching Files are skipped; a matching inode is returned at once;
Directory children are searched depth-first before moving on. -/
def find_ino_mut_list (directory : List Entry) (ino : Nat) : Option Entry :=
  match directory with
  | [] => none
  | .mk nm fp i inf :: es =>
    if i == ino then some (.mk nm fp i inf)
    else
      match inf with
      | .File _ => find_ino_mut_list es ino
      | .Directory cs =>
        match find_ino_mut_list cs ino with
        | some r => some r
        | none => find_ino_mut_list es ino

/-- Mirrors `Entry::find_ino_mut` (fs.rs): the mutable-path resolver, which
compares against the node's stored inode (unlike the read-only path). -/
def Entry.find_ino_mut (e : Entry) (ino : Nat) : Option Entry :=
  if e.inode == ino then some e
  else
    match e.info with
    | .Directory contents => find_ino_mut_list contents ino
    | .File _ => none

/-- Models Rust's `str::to_lowercase` at the character level (the names the
claims exercise are ASCII, where per-character lowercasing agrees with it). -/
def lowercase (s : String) : List Char :=
  s.data.map Char.toLower

/-- Mirrors `Entry::find_name` (fs.rs): linear scan over a Directory's
children comparing lowercased names, returning the first match; a File has no
children to scan. -/
def Entry.find_name (e : Entry) (name : String) : Option Entry :=
  match e.info with
  | .Directory entries =>
    entries.find? (fun c => lowercase c.name == lowercase name)
  | .File _ => none

/-- Result of `Data::read` (fs.rs), with Rust's `std::io::Result` split into
success and error, and the out-of-range slice panic made explicit. -/
inductive DataResult where
  | ok (bytes : List Nat)
  | ioError
  | panic
deriving DecidableEq, Repr

/-- Mirrors `Data::read` (fs.rs).  `env` models the real on-disk filesystem:
it maps a backing path to its byte content, `none` meaning `File::open`
fails.  `read_at` fills at most `bufLen` bytes starting at `offset` and
short-reads at end of file; the `Memory` arm is the direct slice copy
`&data[offset..offset + buffer.len()]`, which panics when the range exceeds
the stored buffer. -/
def Data.read (env : String → Option (List Nat)) (d : Data)
    (bufLen offset : Nat) : DataResult :=
  match d with
  | .FilePath path =>
    match env path with
    | none => .ioError
    | some content => .ok ((content.drop offset).take bufLen)
  | .Memory data =>
    if offset + bufLen ≤ data.length then .ok ((data.drop offset).take bufLen)
    else .panic

/-- Mirrors `fuser::FileType` at the two variants the code uses. -/
inductive FileType where
  | RegularFile
  | Directory
deriving DecidableEq, Repr

/-- Mirrors `fuser::FileAttr` at the fields the code fills in
`Entry::get_fileattr`; the four `UNIX_EPOCH` timestamps are seconds. -/
structure FileAttr where
  ino : Nat
  size : Nat
  blocks : Nat
  atime : Nat
  mtime : Nat
  ctime : Nat
  crtime : Nat
  kind : FileType
  perm : Nat
  nlink : Nat
  uid : Nat
  gid : Nat
  rdev : Nat
  flags : Nat
  blksize : Nat
deriving DecidableEq, Repr

/-- Mirrors `Entry::get_fileattr` (fs.rs): fixed attribute values, with files
and directories differing in kind, size, blocks, nlink and ownership. -/
def Entry.get_fileattr (e : Entry) : FileAttr :=
  match e.info with
  | .File size =>
    { ino := e.inode, size := size, blocks := 1
      atime := 0, mtime := 0, ctime := 0, crtime := 0
      kind := .RegularFile, perm := 0o755, nlink := 1
      uid := 333, gid := 333, rdev := 0, flags := 0, blksize := 512 }
  | .Directory _ =>
    { ino := e.inode, size := 0, blocks := 0
      atime := 0, mtime := 0, ctime := 0, crtime := 0
      kind := .Directory, perm := 0o755, nlink := 2
      uid := 1000, gid := 1000, rdev := 0, flags := 0, blksize := 512 }

/-- The entry `Directory::create_file` (fs.rs) pushes: a zero-length
in-memory File. -/
def newFileEntry (ino : Nat) (name : String) : Entry :=
  .mk name (.Memory []) ino (.File 0)

/-- Result of the `find_ino_mut` + push sequence inside
`Directory::create_file` (fs.rs): parent not found, parent is a File, or the
tree with the new child appended. -/
inductive CResult (α : Type) where
  | notFound
  | isFile
  | ok (a : α)
deriving DecidableEq, Repr

/-- List-level embedding of `Directory::create_file`'s mutation through
`Entry::find_ino_mut_internal` (fs.rs): the push of the new child happens at
the first entry with the requested inode in the mutable traversal order. -/
def create_at_list (directory : List Entry) (ino newIno : Nat)
    (name : String) : CResult (List Entry) :=
  match directory with
  | [] => .notFound
  | .mk nm fp i inf :: es =>
    if i == ino then
      match inf with
      | .File _ => .isFile
      | .Directory cs =>
        .ok (.mk nm fp i (.Directory (cs ++ [newFileEntry newIno name])) :: es)
    else
      match inf with
      | .File sz =>
        match create_at_list es ino newIno name with
        | .notFound => .notFound
        | .isFile => .isFile
        | .ok es' => .ok (.mk nm fp i (.File sz) :: es')
      | .Directory cs =>
        match create_at_list cs ino newIno name with
        | .isFile => .isFile
        | .ok cs' => .ok (.mk nm fp i (.Directory cs') :: es)
        | .notFound =>
          match create_at_list es ino newIno name with
          | .notFound => .notFound
          | .isFile => .isFile
          | .ok es' => .ok (.mk nm fp i (.Directory cs) :: es')

/-- Root-level embedding of `Directory::create_file`'s resolution
(`Entry::find_ino_mut` on the root) followed by the push. -/
def Entry.create_at (e : Entry) (ino newIno : Nat) (name : String) :
    CResult Entry :=
  match e with
  | .mk nm fp i inf =>
    if i == ino then
      match inf with
      | .File _ => .isFile
      | .Directory cs =>
        .ok (.mk nm fp i (.Directory (cs ++ [newFileEntry newIno name])))
    else
      match inf with
      | .File _ => .notFound
      | .Directory cs =>
        match create_at_list cs ino newIno name with
        | .notFound => .notFound
        | .isFile => .isFile
        | .ok cs' => .ok (.mk nm fp i (.Directory cs'))

example :
    (Entry.mk "" (.FilePath "/s") 1
        (.Directory [Entry.mk "a" (.FilePath "/s/a") 2 (.File 4)])).find_ino 2
      = some (Entry.mk "a" (.FilePath "/s/a") 2 (.File 4)) := by
  simp [Entry.find_ino, find_ino_internal, find_ino_descend, List.find?]

example :
    (Entry.mk "" (.FilePath "/s") 1
        (.Directory [Entry.mk "a" (.FilePath "/s/a") 2 (.File 4)])).create_at 1 3 "n"
      = .ok (Entry.mk "" (.FilePath "/s") 1
          (.Directory [Entry.mk "a" (.FilePath "/s/a") 2 (.File 4),
            newFileEntry 3 "n"])) := by
  simp [Entry.create_at]

/-- Mirrors `struct Directory` (fs.rs): the owning structure, one root Entry
plus the shared inode counter. -/
structure Directory where
  root : Entry
  inode_ctr : Nat

/-- Mirrors `Directory::create_file` (fs.rs): resolve the parent through the
mutable resolver; fail on a File parent or an absent inode; otherwise push a
zero-length in-memory File child carrying the current counter value, then
bump the counter.  The returned Entry is the pushed one
(`entries.last().unwrap()`). -/
def Directory.create_file (d : Directory) (parent : Nat) (name : String) :
    Option (Directory × Entry) :=
  match d.root.create_at parent d.inode_ctr name with
  | .ok root' => some (⟨root', d.inode_ctr + 1⟩, newFileEntry d.inode_ctr name)
  | .isFile => none
  | .notFound => none

/-- Model of the external on-disk tree that `std::fs::read_dir` walks in
`Entry::build_directory` (fs.rs): each child is a file with its canonical
path and size, or a directory with its canonical path and children, already
in the order the listing primitive returns (with `.` and `..` skipped). -/
inductive DiskTree where
  | file (name : String) (path : String) (size : Nat)
  | dir (name : String) (path : String) (children : List DiskTree)

/-- Mirrors `Entry::build_directory` (fs.rs) over the modelled disk: files
take the current counter then bump it; a directory's subtree is built first,
then the directory entry takes the counter and bumps it. -/
def Entry.build_directory (t : List DiskTree) (inode_offset : Nat) :
    List Entry × Nat :=
  match t with
  | [] => ([], inode_offset)
  | .file nm p sz :: rest =>
    let (es, c') := Entry.build_directory rest (inode_offset + 1)
    (Entry.mk nm (.FilePath p) inode_offset (.File sz) :: es, c')
  | .dir nm p subs :: rest =>
    let (subEs, c1) := Entry.build_directory subs inode_offset
    let (es, c2) := Entry.build_directory rest (c1 + 1)
    (Entry.mk nm (.FilePath p) c1 (.Directory subEs) :: es, c2)

/-- Mirrors `Entry::new` (fs.rs): bump the counter once, build the children,
and hard-wire the root's inode to 1 with an empty name. -/
def Entry.new (dir : String) (t : List DiskTree) (inode_ctr : Nat) :
    Entry × Nat :=
  let (cs, c') := Entry.build_directory t (inode_ctr + 1)
  (Entry.mk "" (.FilePath dir) 1 (.Directory cs), c')

/-- Mirrors `Directory::new` (fs.rs): the counter starts at 1. -/
def Directory.new (dir : String) (t : List DiskTree) : Directory :=
  let (root, c) := Entry.new dir t 1
  ⟨root, c⟩

/-- The multiset of inode values stored in a list of entries (specification
apparatus for the uniqueness invariant, not a source function). -/
def inodesL (l : List Entry) : List Nat :=
  match l with
  | [] => []
  | .mk _ _ i (.File _) :: es => i :: inodesL es
  | .mk _ _ i (.Directory cs) :: es => i :: (inodesL cs ++ inodesL es)

/-- The multiset of inode values stored anywhere in an entry's tree. -/
def Entry.inodes (e : Entry) : List Nat :=
  match e with
  | .mk _ _ i (.File _) => [i]
  | .mk _ _ i (.Directory cs) => i :: inodesL cs

/-- Mirrors `struct ReadEvent` (fs.rs): the access record payload.  The
`Event` wrapper only adds the wall-clock timestamp (`Utc::now`), which is
external. -/
structure ReadEvent where
  file : String
  offset : Nat
  size : Nat
deriving DecidableEq, Repr

/-- `libc::ENOENT`. -/
def ENOENT : Nat := 2

/-- `libc::EIO`: the generic I/O error code, for comparison with what the
code actually replies. -/
def eioCode : Nat := 5

/-- The handler's fixed read buffer capacity: `[0u8; 1024*1024]` (fs.rs). -/
def BUF_CAP : Nat := 1024 * 1024

/-- Outcome of the `read` handler as seen by the protocol layer: a data
reply, an error reply, or a panic of the handler (out-of-range slicing). -/
inductive ReadOutcome where
  | data (bytes : List Nat)
  | error (code : Nat)
  | panic
deriving DecidableEq, Repr

namespace FileAccessTrackingFs

/-- Mirrors `FileAccessTrackingFs::read` (fs.rs).  Resolution failure replies
`ENOENT` with no event.  Otherwise the code slices `buffer[0..size]` out of
the fixed 1 MiB array — a panic when `size` exceeds it and no event is sent —
and calls `Data::read`; on `Ok(s)` it replies the `s` bytes read, on `Err` it
replies `ENOENT`, and in both of those cases it then sends exactly one event
carrying the originally requested offset and size.  A panic inside
`Data::read` unwinds before the event is constructed. -/
def read (env : String → Option (List Nat)) (d : Directory)
    (ino offset size : Nat) : ReadOutcome × List ReadEvent :=
  match d.root.find_ino ino with
  | none => (.error ENOENT, [])
  | some entry =>
    if size ≤ BUF_CAP then
      match Data.read env entry.full_path size offset with
      | .ok bytes => (.data bytes, [⟨entry.name, offset, size⟩])
      | .ioError => (.error ENOENT, [⟨entry.name, offset, size⟩])
      | .panic => (.panic, [])
    else (.panic, [])

end FileAccessTrackingFs

example :
    FileAccessTrackingFs.read
      (fun p => if p == "/s/a" then some [97, 98, 99, 100] else none)
      ⟨Entry.mk "" (.FilePath "/s") 1
        (.Directory [Entry.mk "a" (.FilePath "/s/a") 2 (.File 4)]), 3⟩
      2 2 10
      = (.data [99, 100], [⟨"a", 2, 10⟩]) := by
  simp [FileAccessTrackingFs.read, Entry.find_ino, find_ino_internal,
    find_ino_descend, List.find?, Data.read, BUF_CAP]

/-- Models `&std::ffi::OsStr` at the only interface the handlers use
(`to_str`): a kernel-supplied name that is either valid UTF-8 or not. -/
inductive OsStrArg where
  | utf8 (s : String)
  | nonUtf8
deriving DecidableEq, Repr

/-- Mirrors `OsStr::to_str`: `Some` exactly for valid UTF-8. -/
def OsStrArg.to_str : OsStrArg → Option String
  | .utf8 s => some s
  | .nonUtf8 => none

/-- Outcome of the `lookup` handler: an entry reply (attributes) or an error
reply. -/
inductive LookupOutcome where
  | entry (attr : FileAttr)
  | error (code : Nat)
deriving DecidableEq, Repr

/-- Outcome of the `create` handler: a created reply (attributes) or an error
reply. -/
inductive CreateOutcome where
  | created (attr : FileAttr)
  | error (code : Nat)
deriving DecidableEq, Repr

/-- Outcome of the `write` handler: fuser's `ReplyWrite` either reports the
written size, reports an error, or — as in this code — is dropped without
any reply being sent. -/
inductive WriteOutcome where
  | replied (size : Nat)
  | error (code : Nat)
  | noReply
deriving DecidableEq, Repr

/-- One row the `readdir` handler hands to `reply.add` (fs.rs): the entry's
inode, the "next offset" tag `i + 1`, the kind, and the name. -/
structure DirOut where
  ino : Nat
  nextOffset : Nat
  kind : FileType
  name : String
deriving DecidableEq, Repr

/-- One element of the logical directory sequence before offsets are
attached. -/
structure DirItem where
  ino : Nat
  kind : FileType
  name : String
deriving DecidableEq, Repr

/-- The logical sequence `readdir` builds (fs.rs): the two dot entries, both
tagged inode 1, followed by the children in tree order. -/
def dirListing (dir_entries : List Entry) : List DirItem :=
  ⟨1, .Directory, "."⟩ :: ⟨1, .Directory, ".."⟩ ::
    dir_entries.map (fun e =>
      ⟨e.inode,
        match e.info with
        | .Directory _ => .Directory
        | .File _ => .RegularFile,
        e.name⟩)

namespace FileAccessTrackingFs

/-- Mirrors `FileAccessTrackingFs::lookup` (fs.rs): a non-UTF-8 name replies
`ENOENT` at once; otherwise resolve the parent by inode and the child by
case-insensitive name, replying the child's attributes or `ENOENT`. -/
def lookup (d : Directory) (parent : Nat) (name : OsStrArg) : LookupOutcome :=
  match name.to_str with
  | some nm =>
    match (d.root.find_ino parent).bind (fun p => p.find_name nm) with
    | some matching_entry => .entry matching_entry.get_fileattr
    | none => .error ENOENT
  | none => .error ENOENT

/-- Mirrors `FileAccessTrackingFs::create` (fs.rs): a non-UTF-8 name replies
`ENOENT`; otherwise `Directory::create_file` either yields the new entry
(replied with its attributes) or fails with `ENOENT`, leaving the tree
untouched. -/
def create (d : Directory) (parent : Nat) (name : OsStrArg) :
    CreateOutcome × Directory :=
  match name.to_str with
  | some nm =>
    match d.create_file parent nm with
    | some (d', entry) => (.created entry.get_fileattr, d')
    | none => (.error ENOENT, d)
  | none => (.error ENOENT, d)

/-- Mirrors `FileAccessTrackingFs::write` (fs.rs): the body is empty — the
reply object is dropped without being used and nothing is modified. -/
def write (d : Directory) (_ino _offset : Nat) (_data : List Nat) :
    WriteOutcome × Directory :=
  (.noReply, d)

/-- Mirrors `FileAccessTrackingFs::readdir` (fs.rs): resolve by inode; a File
or an absent inode replies `ENOENT`; otherwise emit, starting at
`offset` into the logical sequence (`enumerate().skip(offset)`), each entry
tagged with its own index plus one.  The reply sink is modelled as never
full, so the loop runs to the end of the sequence. -/
def readdir (d : Directory) (ino offset : Nat) : Option (List DirOut) :=
  match d.root.find_ino ino with
  | none => none
  | some entry =>
    match entry.info with
    | .File _ => none
    | .Directory dir_entries =>
      some (((dirListing dir_entries).enum.drop offset).map
        (fun p => ⟨p.2.ino, p.1 + 1, p.2.kind, p.2.name⟩))

end FileAccessTrackingFs

/-- The states of the owning structure reachable in the program: the tree is
built once by `Directory::new` and thereafter mutated only by
`Directory::create_file` (fs.rs). -/
inductive Reachable : Directory → Prop where
  | built (dir : String) (t : List DiskTree) : Reachable (Directory.new dir t)
  | created (d d' : Directory) (parent : Nat) (name : String) (e : Entry)
      (hd : Reachable d) (hc : d.create_file parent name = some (d', e)) :
      Reachable d'

/-! ## Helper lemmas -/

theorem List.find?_first {α} (p : α → Bool) :
    ∀ (l : List α) (r : α), l.find? p = some r →
      ∃ l1 l2, l = l1 ++ r :: l2 ∧ (∀ a ∈ l1, p a = false) ∧ p r = true := by
  intro l
  induction l with
  | nil => intro r h; simp [List.find?] at h
  | cons a l ih =>
    intro r h
    rw [List.find?_cons] at h
    cases hp : p a with
    | true =>
      rw [hp] at h
      obtain rfl : a = r := by simpa using h
      exact ⟨[], l, rfl, by simp, hp⟩
    | false =>
      rw [hp] at h
      obtain ⟨l1, l2, rfl, h1, h2⟩ := ih r h
      exact ⟨a :: l1, l2, rfl, by simpa [hp] using h1, h2⟩

theorem inodesL_append : ∀ (a b : List Entry),
    inodesL (a ++ b) = inodesL a ++ inodesL b := by
  intro a b
  induction a with
  | nil => simp [inodesL]
  | cons e es ih =>
    cases e with
    | mk nm fp i inf =>
      cases inf with
      | Directory cs => simp [inodesL, ih]
      | File sz => simp [inodesL, ih]

@[simp] theorem inodesL_new_file (n : Nat) (nm : String) :
    inodesL [newFileEntry n nm] = [n] := by
  simp [inodesL, newFileEntry]

/-- The permutation shape produced by appending one new inode inside a
subtree: `i :: (A ++ [n] ++ B)` is a permutation of `n :: i :: (A ++ B)`. -/
theorem perm_insert_inode (i n : Nat) (A B : List Nat) :
    (i :: (A ++ n :: B)).Perm (n :: i :: (A ++ B)) := by
  have h1 : (A ++ n :: B).Perm (n :: (A ++ B)) := List.perm_middle
  exact (h1.cons i).trans (List.Perm.swap n i (A ++ B))

/-! ## Concrete fixtures used by witnesses and counterexamples -/

/-- A modelled on-disk file `/src/a.txt` containing the bytes `abcd`. -/
def envA : String → Option (List Nat) :=
  fun p => if p == "/src/a.txt" then some [97, 98, 99, 100] else none

/-- A modelled disk where every `File::open` fails. -/
def envNone : String → Option (List Nat) := fun _ => none

def fileA : Entry := .mk "a.txt" (.FilePath "/src/a.txt") 2 (.File 4)

def dirA : Directory := ⟨.mk "" (.FilePath "/src") 1 (.Directory [fileA]), 3⟩

def fileG : Entry := .mk "gone.txt" (.FilePath "/src/gone.txt") 2 (.File 4)

def dirG : Directory := ⟨.mk "" (.FilePath "/src") 1 (.Directory [fileG]), 3⟩

/-! ## Claims -/

/-- C1: for every read request whose inode resolves to an entry and whose
Data Accessor call succeeds, the handler returns exactly the bytes actually
read (never more than requested, and zero bytes when the offset is at or past
the end of a backing file) and emits exactly one Read event carrying the
originally requested offset and length, regardless of how many bytes were
actually returned. -/
theorem read_success_exact_bytes_one_event
    (env : String → Option (List Nat)) (d : Directory)
    (ino offset size : Nat) (entry : Entry) (bytes : List Nat)
    (hfind : d.root.find_ino ino = some entry)
    (hcap : size ≤ BUF_CAP)
    (hread : Data.read env entry.full_path size offset = .ok bytes) :
    FileAccessTrackingFs.read env d ino offset size
        = (.data bytes, [⟨entry.name, offset, size⟩])
      ∧ bytes.length ≤ size
      ∧ (∀ p content, entry.full_path = .FilePath p → env p = some content →
          content.length ≤ offset → bytes = []) := by
  refine ⟨?_, ?_, ?_⟩
  · simp only [FileAccessTrackingFs.read, hfind, if_pos hcap, hread]
  · cases hfp : entry.full_path with
    | FilePath path =>
      rw [hfp] at hread
      cases henv : env path with
      | none => simp [Data.read, henv] at hread
      | some content =>
        simp only [Data.read, henv] at hread
        obtain rfl : (content.drop offset).take size = bytes := by
          simpa using hread
        calc ((content.drop offset).take size).length
            = min size (content.drop offset).length := List.length_take ..
          _ ≤ size := Nat.min_le_left ..
    | Memory data =>
      rw [hfp] at hread
      by_cases hle : offset + size ≤ data.length
      · simp only [Data.read, if_pos hle] at hread
        obtain rfl : (data.drop offset).take size = bytes := by simpa using hread
        calc ((data.drop offset).take size).length
            = min size (data.drop offset).length := List.length_take ..
          _ ≤ size := Nat.min_le_left ..
      · simp [Data.read, if_neg hle] at hread
  · intro p content hfp henv hoff
    rw [hfp] at hread
    simp only [Data.read, henv] at hread
    rw [List.drop_eq_nil_of_le hoff] at hread
    simpa using hread.symm

/-- Witness for C1: reading two bytes at offset 0 of the 4-byte file. -/
theorem read_success_exact_bytes_one_event_witness :
    FileAccessTrackingFs.read envA dirA 2 0 2
      = (.data [97, 98], [⟨"a.txt", 0, 2⟩]) := by
  have h := read_success_exact_bytes_one_event envA dirA 2 0 2 fileA [97, 98]
    (by simp [dirA, fileA, Entry.find_ino, find_ino_internal, find_ino_descend,
      List.find?])
    (by norm_num [BUF_CAP])
    (by simp [fileA, Data.read, envA])
  simpa [fileA] using h.1

/-- C2 counterexample: with a backing file whose open fails, the handler
replies `ENOENT` — the not-found code, not the generic I/O error code — and
still emits the Read event, contradicting the claim that a failed Data
Accessor call signals an I/O error and emits no event. -/
theorem read_error_claim_cex :
    FileAccessTrackingFs.read envNone dirG 2 0 4
        = (.error ENOENT, [⟨"gone.txt", 0, 4⟩])
      ∧ ENOENT ≠ eioCode := by
  refine ⟨?_, by decide⟩
  simp [FileAccessTrackingFs.read, dirG, fileG, Entry.find_ino,
    find_ino_internal, find_ino_descend, List.find?, Data.read, envNone,
    BUF_CAP]

/-- C2 amended: for every read request whose inode resolves to an entry but
whose Data Accessor call fails, the handler replies with the not-found code
`ENOENT` (not a distinct I/O error code) and still emits exactly one Read
event carrying the originally requested offset and length. -/
theorem read_error_enoent_still_emits
    (env : String → Option (List Nat)) (d : Directory)
    (ino offset size : Nat) (entry : Entry)
    (hfind : d.root.find_ino ino = some entry)
    (hcap : size ≤ BUF_CAP)
    (hread : Data.read env entry.full_path size offset = .ioError) :
    FileAccessTrackingFs.read env d ino offset size
      = (.error ENOENT, [⟨entry.name, offset, size⟩]) := by
  simp only [FileAccessTrackingFs.read, hfind, if_pos hcap, hread]

/-- Witness for the amended C2. -/
theorem read_error_enoent_still_emits_witness :
    FileAccessTrackingFs.read envNone dirG 2 1 3
      = (.error ENOENT, [⟨"gone.txt", 1, 3⟩]) := by
  have h := read_error_enoent_still_emits envNone dirG 2 1 3 fileG
    (by simp [dirG, fileG, Entry.find_ino, find_ino_internal, find_ino_descend,
      List.find?])
    (by norm_num [BUF_CAP])
    (by simp [fileG, Data.read, envNone])
  simpa [fileG] using h

/-- C3 counterexample: a read requesting one byte more than the 1 MiB
ceiling does not complete with at most the ceiling's worth of bytes — the
slice `buffer[0..size]` of the fixed array is out of range and the handler
panics. -/
theorem read_over_capacity_claim_cex :
    FileAccessTrackingFs.read envA dirA 2 0 (BUF_CAP + 1) = (.panic, []) := by
  have hfind : dirA.root.find_ino 2 = some fileA := by
    simp [dirA, fileA, Entry.find_ino, find_ino_internal, find_ino_descend,
      List.find?]
  simp only [FileAccessTrackingFs.read, hfind, if_neg (by omega : ¬ BUF_CAP + 1 ≤ BUF_CAP)]

/-- C3 amended: for requests of at most the 1 MiB ceiling the handler's
buffer is sized to exactly the requested length (which then equals
`min(requested_length, capacity)`), and the Data Accessor outcome is mapped
to the reply; a read requesting more than the ceiling does not complete:
the handler panics instead of returning the ceiling's worth of bytes. -/
theorem read_buffer_min_or_panic
    (env : String → Option (List Nat)) (d : Directory)
    (ino offset size : Nat) (entry : Entry)
    (hfind : d.root.find_ino ino = some entry) :
    (size ≤ BUF_CAP →
      FileAccessTrackingFs.read env d ino offset size
          = (match Data.read env entry.full_path (min size BUF_CAP) offset with
             | .ok bytes => (.data bytes, [⟨entry.name, offset, size⟩])
             | .ioError => (.error ENOENT, [⟨entry.name, offset, size⟩])
             | .panic => (.panic, []))
        ∧ size = min size BUF_CAP)
    ∧ (BUF_CAP < size →
      FileAccessTrackingFs.read env d ino offset size = (.panic, [])) := by
  constructor
  · intro hcap
    rw [Nat.min_eq_left hcap]
    exact ⟨by simp only [FileAccessTrackingFs.read, hfind, if_pos hcap], rfl⟩
  · intro hover
    simp only [FileAccessTrackingFs.read, hfind, if_neg (by omega : ¬ size ≤ BUF_CAP)]

/-- Witness for the amended C3: a request two bytes over the ceiling panics. -/
theorem read_buffer_min_or_panic_witness :
    FileAccessTrackingFs.read envA dirA 2 0 (BUF_CAP + 2) = (.panic, []) :=
  (read_buffer_min_or_panic envA dirA 2 0 (BUF_CAP + 2) fileA
    (by simp [dirA, fileA, Entry.find_ino, find_ino_internal, find_ino_descend,
      List.find?])).2 (by omega)

/-- C7 counterexample: the `write` handler drops its reply object without
using it — it does not report success (it sends no reply at all), though it
indeed modifies nothing. -/
theorem write_claim_cex :
    FileAccessTrackingFs.write dirA 2 0 [104, 105] = (.noReply, dirA)
      ∧ WriteOutcome.noReply ≠ WriteOutcome.replied 2 := ⟨rfl, by simp⟩

/-- C7 amended: for every write request, with any inode, offset and data,
the handler sends no reply of its own — it neither reports success nor an
error — and no entry's stored content or recorded size is modified (the
returned tree is exactly the input tree). -/
theorem write_no_reply_no_mutation (d : Directory) (ino offset : Nat)
    (data : List Nat) :
    FileAccessTrackingFs.write d ino offset data = (.noReply, d) := rfl

/-- C10: for every lookup or create request whose name argument is not valid
UTF-8, the handler replies `ENOENT` without matching any entry, and create
leaves the tree unchanged. -/
theorem non_utf8_name_enoent (d : Directory) (parent : Nat) :
    FileAccessTrackingFs.lookup d parent .nonUtf8 = .error ENOENT
      ∧ FileAccessTrackingFs.create d parent .nonUtf8 = (.error ENOENT, d) :=
  ⟨rfl, rfl⟩

/-- C9: `find_name` is a linear scan over a Directory's children comparing
lowercased names returning the first match in stored order — so of two
siblings whose names differ only in case the earlier one wins — and it
returns nothing when the parent Entry is a File. -/
theorem find_name_first_match (e : Entry) (name : String) :
    (∀ sz, e.info = .File sz → e.find_name name = none)
      ∧ (∀ cs r, e.info = .Directory cs → e.find_name name = some r →
          ∃ l1 l2, cs = l1 ++ r :: l2
            ∧ (∀ c ∈ l1, (lowercase c.name == lowercase name) = false)
            ∧ (lowercase r.name == lowercase name) = true)
      ∧ (∀ cs r, e.info = .Directory cs → e.find_name name = some r →
          r ∈ cs ∧ (lowercase r.name == lowercase name) = true)
      ∧ (∀ cs, e.info = .Directory cs → e.find_name name = none →
          ∀ c ∈ cs, (lowercase c.name == lowercase name) = false) := by
  refine ⟨?_, ?_, ?_, ?_⟩
  · intro sz hinf
    simp [Entry.find_name, hinf]
  · intro cs r hinf hfound
    rw [Entry.find_name, hinf] at hfound
    exact List.find?_first _ cs r hfound
  · intro cs r hinf hfound
    rw [Entry.find_name, hinf] at hfound
    obtain ⟨l1, l2, rfl, _, hr⟩ := List.find?_first _ cs r hfound
    exact ⟨by simp, hr⟩
  · intro cs hinf hnone c hc
    rw [Entry.find_name, hinf] at hnone
    simpa using List.find?_eq_none.mp hnone c hc

def fileUp : Entry := .mk "A.txt" (.FilePath "/src/A.txt") 2 (.File 1)

def fileLow : Entry := .mk "a.TXT" (.FilePath "/src/a.TXT") 3 (.File 2)

def rootCase : Entry := .mk "" (.FilePath "/src") 1 (.Directory [fileUp, fileLow])

/-- Witness for C9: with two siblings whose names differ only in case, the
lookup of `a.txt` matches the one appearing first in tree order; a File
parent matches nothing. -/
theorem find_name_first_match_witness :
    (fileUp.find_name "x" = none)
      ∧ (fileUp ∈ [fileUp, fileLow]
          ∧ (lowercase fileUp.name == lowercase "a.txt") = true) := by
  refine ⟨(find_name_first_match fileUp "x").1 1 rfl, ?_⟩
  refine (find_name_first_match rootCase "a.txt").2.2.1 [fileUp, fileLow] fileUp
    rfl ?_
  rw [Entry.find_name]
  simp only [rootCase, Entry.info_mk]
  rw [List.find?_cons_of_pos _ (by simp only [fileUp, Entry.name_mk]; decide)]

/-- The directory the C4 counterexample starts from: an empty source tree. -/
def dirEmpty : Directory := Directory.new "/" []

/-- The tree after the create request of the C4 counterexample. -/
def dirWithNew : Directory :=
  ⟨.mk "" (.FilePath "/") 1 (.Directory [newFileEntry 2 "new.txt"]), 3⟩

/-- C4 counterexample: the out-of-range branch of the in-memory `Data::read`
IS reachable through the request handler, because the handler never bounds a
request to the File's recorded size: after `create` adds an empty in-memory
file, a 1-byte read of it through the handler hits the out-of-range slice
and panics. -/
theorem memory_read_reachable_claim_cex :
    FileAccessTrackingFs.create dirEmpty 1 (.utf8 "new.txt")
        = (.created (newFileEntry 2 "new.txt").get_fileattr, dirWithNew)
      ∧ FileAccessTrackingFs.read envNone dirWithNew 2 0 1 = (.panic, []) := by
  constructor
  · simp [FileAccessTrackingFs.create, OsStrArg.to_str, dirEmpty, Directory.new,
      Entry.new, Entry.build_directory, Directory.create_file, Entry.create_at,
      dirWithNew]
  · simp [FileAccessTrackingFs.read, dirWithNew, newFileEntry, Entry.find_ino,
      find_ino_internal, find_ino_descend, List.find?, Data.read, BUF_CAP]

/-- C4 amended: for in-memory content, Data read is a direct byte-range copy
when the requested range lies inside the stored buffer; the out-of-range
branch is reachable through the request handler, which does not bound
requests to the File's recorded size: any resolved in-memory entry read with
a range past the stored buffer's end (and a length within the 1 MiB buffer)
makes the handler panic. -/
theorem memory_read_copy_or_panic
    (env : String → Option (List Nat)) (data : List Nat)
    (bufLen offset : Nat) :
    (offset + bufLen ≤ data.length →
      Data.read env (.Memory data) bufLen offset
        = .ok ((data.drop offset).take bufLen))
      ∧ (∀ d ino entry, d.root.find_ino ino = some entry →
          entry.full_path = .Memory data → bufLen ≤ BUF_CAP →
          data.length < offset + bufLen →
          FileAccessTrackingFs.read env d ino offset bufLen = (.panic, [])) := by
  constructor
  · intro hle
    simp [Data.read, if_pos hle]
  · intro d ino entry hfind hfp hcap hover
    simp only [FileAccessTrackingFs.read, hfind, if_pos hcap, hfp, Data.read,
      if_neg (by omega : ¬ offset + bufLen ≤ data.length)]

/-- Witness for the amended C4. -/
theorem memory_read_copy_or_panic_witness :
    FileAccessTrackingFs.read envA dirWithNew 2 0 5 = (.panic, []) :=
  (memory_read_copy_or_panic envA [] 5 0).2 dirWithNew 2 (newFileEntry 2 "new.txt")
    (by simp [dirWithNew, newFileEntry, Entry.find_ino, find_ino_internal,
      find_ino_descend, List.find?])
    (by simp [newFileEntry])
    (by norm_num [BUF_CAP])
    (by simp)

theorem enumFrom_drop_map_snd {α : Type} (l : List α) (n k : Nat) :
    ((List.enumFrom n l).drop k).map Prod.snd = l.drop k := by
  rw [List.map_drop, List.enumFrom_map_snd]

theorem enumFrom_drop_fst {α : Type} (l : List α) (n k j : Nat)
    (h : j < ((List.enumFrom n l).drop k).length) :
    (((List.enumFrom n l).drop k)[j]).1 = n + k + j := by
  have h2 : k + j < (List.enumFrom n l).length := by
    rw [List.length_drop] at h
    omega
  rw [List.getElem_drop, List.getElem_enumFrom]
  show n + (k + j) = n + k + j
  omega

/-- C6: for every readdir request on an inode resolving to a Directory, the
logical sequence is self (`.`), then parent (`..`), both modeled as inode 1,
then the children in tree order; each emitted item's next-offset tag equals
its own logical index plus one; and resuming from offset `k` yields exactly
the suffix of the full listing starting at index `k`, for every `k`
(including `k = 0` and `k = total count`, where the suffix is empty).  A File
or an absent inode is answered not-found. -/
theorem readdir_pagination (d : Directory) (ino k : Nat) :
    (d.root.find_ino ino = none → FileAccessTrackingFs.readdir d ino k = none)
      ∧ (∀ entry sz, d.root.find_ino ino = some entry →
          entry.info = .File sz → FileAccessTrackingFs.readdir d ino k = none)
      ∧ (∀ entry cs, d.root.find_ino ino = some entry →
          entry.info = .Directory cs →
          ∃ out, FileAccessTrackingFs.readdir d ino k = some out
            ∧ out.map (fun o => DirItem.mk o.ino o.kind o.name)
                = (dirListing cs).drop k
            ∧ out.length = (dirListing cs).length - k
            ∧ (∀ j (h : j < out.length), (out[j]).nextOffset = k + j + 1)
            ∧ dirListing cs
                = ⟨1, .Directory, "."⟩ :: ⟨1, .Directory, ".."⟩ ::
                    cs.map (fun e =>
                      ⟨e.inode,
                        match e.info with
                        | .Directory _ => FileType.Directory
                        | .File _ => FileType.RegularFile,
                        e.name⟩)) := by
  refine ⟨?_, ?_, ?_⟩
  · intro hfind
    simp [FileAccessTrackingFs.readdir, hfind]
  · intro entry sz hfind hinf
    simp [FileAccessTrackingFs.readdir, hfind, hinf]
  · intro entry cs hfind hinf
    refine ⟨((List.enum (dirListing cs)).drop k).map
      (fun p => ⟨p.2.ino, p.1 + 1, p.2.kind, p.2.name⟩), ?_, ?_, ?_, ?_, rfl⟩
    · simp [FileAccessTrackingFs.readdir, hfind, hinf]
    · rw [List.map_map]
      have hcomp : ((fun o : DirOut => DirItem.mk o.ino o.kind o.name) ∘
          (fun p : Nat × DirItem => DirOut.mk p.2.ino (p.1 + 1) p.2.kind p.2.name))
          = Prod.snd := by
        funext p
        rfl
      rw [hcomp, List.enum]
      exact enumFrom_drop_map_snd _ 0 k
    · simp [List.length_drop, List.enum_length]
    · intro j h
      have h' : j < ((List.enumFrom 0 (dirListing cs)).drop k).length := by
        simpa [List.enum] using h
      rw [List.getElem_map]
      show (((List.enumFrom 0 (dirListing cs)).drop k)[j]).1 + 1 = k + j + 1
      rw [enumFrom_drop_fst (dirListing cs) 0 k j h']
      omega

/-- Witness for C6: a readdir of a File inode is answered not-found. -/
theorem readdir_pagination_witness :
    FileAccessTrackingFs.readdir dirA 2 0 = none :=
  (readdir_pagination dirA 2 0).2.1 fileA 4
    (by simp [dirA, fileA, Entry.find_ino, find_ino_internal, find_ino_descend,
      List.find?])
    rfl

theorem create_at_list_spec (l : List Entry) (ino n : Nat) (nm : String) :
    (find_ino_mut_list l ino = none → create_at_list l ino n nm = .notFound)
      ∧ (∀ f sz, find_ino_mut_list l ino = some f → f.info = .File sz →
          create_at_list l ino n nm = .isFile)
      ∧ (∀ f cs0, find_ino_mut_list l ino = some f →
          f.info = .Directory cs0 →
          ∃ l', create_at_list l ino n nm = .ok l'
            ∧ find_ino_mut_list l' ino
                = some (.mk f.name f.full_path f.inode
                    (.Directory (cs0 ++ [newFileEntry n nm])))
            ∧ (inodesL l').Perm (n :: inodesL l)) := by
  induction l, ino, n, nm using create_at_list.induct with
  | case1 ino n nm =>
    refine ⟨fun _ => by simp [create_at_list], ?_, ?_⟩
    · intro f sz hf
      simp [find_ino_mut_list] at hf
    · intro f cs0 hf
      simp [find_ino_mut_list] at hf
  | case2 ino n nm nm0 fp i es h sz =>
    refine ⟨?_, ?_, ?_⟩
    · intro hf
      simp [find_ino_mut_list, h] at hf
    · intro f sz' hf hinf
      simp [create_at_list, h]
    · intro f cs0 hf hinf
      have hf' : f = Entry.mk nm0 fp i (.File sz) := by
        simpa [find_ino_mut_list, h] using hf.symm
      subst hf'
      simp at hinf
  | case3 ino n nm nm0 fp i es h cs =>
    refine ⟨?_, ?_, ?_⟩
    · intro hf
      simp [find_ino_mut_list, h] at hf
    · intro f sz' hf hinf
      have hf' : f = Entry.mk nm0 fp i (.Directory cs) := by
        simpa [find_ino_mut_list, h] using hf.symm
      subst hf'
      simp at hinf
    · intro f cs0 hf hinf
      have hf' : f = Entry.mk nm0 fp i (.Directory cs) := by
        simpa [find_ino_mut_list, h] using hf.symm
      subst hf'
      rw [Entry.info_mk] at hinf
      injection hinf with hcs
      subst hcs
      refine ⟨Entry.mk nm0 fp i (.Directory (cs ++ [newFileEntry n nm])) :: es,
        by simp [create_at_list, h], by simp [find_ino_mut_list, h], ?_⟩
      have hL : inodesL (Entry.mk nm0 fp i
            (.Directory (cs ++ [newFileEntry n nm])) :: es)
          = i :: ((inodesL cs ++ [n]) ++ inodesL es) := by
        simp [inodesL, inodesL_append]
      have hR : inodesL (Entry.mk nm0 fp i (.Directory cs) :: es)
          = i :: (inodesL cs ++ inodesL es) := by
        simp [inodesL]
      rw [hL, hR, List.append_assoc]
      exact perm_insert_inode i n (inodesL cs) (inodesL es)
  | case4 ino n nm nm0 fp i es h sz hrec ih =>
    refine ⟨?_, ?_, ?_⟩
    · intro hf
      simp [create_at_list, h, hrec]
    · intro f sz' hf hinf
      simp [find_ino_mut_list, h] at hf
      rw [ih.2.1 f sz' hf hinf] at hrec
      exact absurd hrec (by simp)
    · intro f cs0 hf hinf
      simp [find_ino_mut_list, h] at hf
      obtain ⟨l'', hCA, _, _⟩ := ih.2.2 f cs0 hf hinf
      rw [hCA] at hrec
      exact absurd hrec (by simp)
  | case5 ino n nm nm0 fp i es h sz hrec ih =>
    refine ⟨?_, ?_, ?_⟩
    · intro hf
      simp [find_ino_mut_list, h] at hf
      rw [ih.1 hf] at hrec
      exact absurd hrec (by simp)
    · intro f sz' hf hinf
      simp [create_at_list, h, hrec]
    · intro f cs0 hf hinf
      simp [find_ino_mut_list, h] at hf
      obtain ⟨l'', hCA, _, _⟩ := ih.2.2 f cs0 hf hinf
      rw [hCA] at hrec
      exact absurd hrec (by simp)
  | case6 ino n nm nm0 fp i es h sz _ hrec ih =>
    refine ⟨?_, ?_, ?_⟩
    · intro hf
      simp [find_ino_mut_list, h] at hf
      rw [ih.1 hf] at hrec
      exact absurd hrec (by simp)
    · intro f sz' hf hinf
      simp [find_ino_mut_list, h] at hf
      rw [ih.2.1 f sz' hf hinf] at hrec
      exact absurd hrec (by simp)
    · intro f cs0 hf hinf
      simp [find_ino_mut_list, h] at hf
      obtain ⟨l2, hCA, hFm, hPerm⟩ := ih.2.2 f cs0 hf hinf
      refine ⟨Entry.mk nm0 fp i (.File sz) :: l2,
        by simp [create_at_list, h, hCA],
        by simp [find_ino_mut_list, h, hFm], ?_⟩
      have hL : inodesL (Entry.mk nm0 fp i (.File sz) :: l2)
          = i :: inodesL l2 := by simp [inodesL]
      have hR : inodesL (Entry.mk nm0 fp i (.File sz) :: es)
          = i :: inodesL es := by simp [inodesL]
      rw [hL, hR]
      exact (hPerm.cons i).trans (List.Perm.swap n i (inodesL es))
  | case7 ino n nm nm0 fp i es h cs hrec ih =>
    refine ⟨?_, ?_, ?_⟩
    · intro hf
      cases hFc : find_ino_mut_list cs ino with
      | some r => simp [find_ino_mut_list, h, hFc] at hf
      | none =>
        rw [ih.1 hFc] at hrec
        exact absurd hrec (by simp)
    · intro f sz' hf hinf
      simp [create_at_list, h, hrec]
    · intro f cs0 hf hinf
      cases hFc : find_ino_mut_list cs ino with
      | some r =>
        have hf' : r = f := by simpa [find_ino_mut_list, h, hFc] using hf
        subst hf'
        obtain ⟨l'', hCA, _, _⟩ := ih.2.2 r cs0 hFc hinf
        rw [hCA] at hrec
        exact absurd hrec (by simp)
      | none =>
        rw [ih.1 hFc] at hrec
        exact absurd hrec (by simp)
  | case8 ino n nm nm0 fp i es h cs _ hrec ih =>
    refine ⟨?_, ?_, ?_⟩
    · intro hf
      cases hFc : find_ino_mut_list cs ino with
      | some r => simp [find_ino_mut_list, h, hFc] at hf
      | none =>
        rw [ih.1 hFc] at hrec
        exact absurd hrec (by simp)
    · intro f sz' hf hinf
      cases hFc : find_ino_mut_list cs ino with
      | some r =>
        have hf' : r = f := by simpa [find_ino_mut_list, h, hFc] using hf
        subst hf'
        rw [ih.2.1 r sz' hFc hinf] at hrec
        exact absurd hrec (by simp)
      | none =>
        rw [ih.1 hFc] at hrec
        exact absurd hrec (by simp)
    · intro f cs0 hf hinf
      cases hFc : find_ino_mut_list cs ino with
      | some r =>
        have hf' : r = f := by simpa [find_ino_mut_list, h, hFc] using hf
        subst hf'
        obtain ⟨l2, hCA, hFm, hPerm⟩ := ih.2.2 r cs0 hFc hinf
        refine ⟨Entry.mk nm0 fp i (.Directory l2) :: es,
          by simp [create_at_list, h, hCA],
          by simp [find_ino_mut_list, h, hFm], ?_⟩
        have hL : inodesL (Entry.mk nm0 fp i (.Directory l2) :: es)
            = i :: (inodesL l2 ++ inodesL es) := by simp [inodesL]
        have hR : inodesL (Entry.mk nm0 fp i (.Directory cs) :: es)
            = i :: (inodesL cs ++ inodesL es) := by simp [inodesL]
        rw [hL, hR]
        have h1 : (inodesL l2 ++ inodesL es).Perm
            (n :: (inodesL cs ++ inodesL es)) := hPerm.append_right (inodesL es)
        exact (h1.cons i).trans (List.Perm.swap n i _)
      | none =>
        rw [ih.1 hFc] at hrec
        exact absurd hrec (by simp)
  | case9 ino n nm nm0 fp i es h cs hrecCs hrecEs ihCs ihEs =>
    have hFc : find_ino_mut_list cs ino = none := by
      cases hFc : find_ino_mut_list cs ino with
      | none => rfl
      | some r =>
        cases hri : r.info with
        | File sz' =>
          rw [ihCs.2.1 r sz' hFc hri] at hrecCs
          exact absurd hrecCs (by simp)
        | Directory cs0 =>
          obtain ⟨l'', hCA, _, _⟩ := ihCs.2.2 r cs0 hFc hri
          rw [hCA] at hrecCs
          exact absurd hrecCs (by simp)
    refine ⟨?_, ?_, ?_⟩
    · intro hf
      simp [create_at_list, h, hrecCs, hrecEs]
    · intro f sz' hf hinf
      simp [find_ino_mut_list, h, hFc] at hf
      rw [ihEs.2.1 f sz' hf hinf] at hrecEs
      exact absurd hrecEs (by simp)
    · intro f cs0 hf hinf
      simp [find_ino_mut_list, h, hFc] at hf
      obtain ⟨l'', hCA, _, _⟩ := ihEs.2.2 f cs0 hf hinf
      rw [hCA] at hrecEs
      exact absurd hrecEs (by simp)
  | case10 ino n nm nm0 fp i es h cs hrecCs hrecEs ihCs ihEs =>
    have hFc : find_ino_mut_list cs ino = none := by
      cases hFc : find_ino_mut_list cs ino with
      | none => rfl
      | some r =>
        cases hri : r.info with
        | File sz' =>
          rw [ihCs.2.1 r sz' hFc hri] at hrecCs
          exact absurd hrecCs (by simp)
        | Directory cs0 =>
          obtain ⟨l'', hCA, _, _⟩ := ihCs.2.2 r cs0 hFc hri
          rw [hCA] at hrecCs
          exact absurd hrecCs (by simp)
    refine ⟨?_, ?_, ?_⟩
    · intro hf
      simp [find_ino_mut_list, h, hFc] at hf
      rw [ihEs.1 hf] at hrecEs
      exact absurd hrecEs (by simp)
    · intro f sz' hf hinf
      simp [create_at_list, h, hrecCs, hrecEs]
    · intro f cs0 hf hinf
      simp [find_ino_mut_list, h, hFc] at hf
      obtain ⟨l'', hCA, _, _⟩ := ihEs.2.2 f cs0 hf hinf
      rw [hCA] at hrecEs
      exact absurd hrecEs (by simp)
  | case11 ino n nm nm0 fp i es h cs hrecCs _ hrecEs ihCs ihEs =>
    have hFc : find_ino_mut_list cs ino = none := by
      cases hFc : find_ino_mut_list cs ino with
      | none => rfl
      | some r =>
        cases hri : r.info with
        | File sz' =>
          rw [ihCs.2.1 r sz' hFc hri] at hrecCs
          exact absurd hrecCs (by simp)
        | Directory cs0 =>
          obtain ⟨l'', hCA, _, _⟩ := ihCs.2.2 r cs0 hFc hri
          rw [hCA] at hrecCs
          exact absurd hrecCs (by simp)
    refine ⟨?_, ?_, ?_⟩
    · intro hf
      simp [find_ino_mut_list, h, hFc] at hf
      rw [ihEs.1 hf] at hrecEs
      exact absurd hrecEs (by simp)
    · intro f sz' hf hinf
      simp [find_ino_mut_list, h, hFc] at hf
      rw [ihEs.2.1 f sz' hf hinf] at hrecEs
      exact absurd hrecEs (by simp)
    · intro f cs0 hf hinf
      simp [find_ino_mut_list, h, hFc] at hf
      obtain ⟨l2, hCA, hFm, hPerm⟩ := ihEs.2.2 f cs0 hf hinf
      refine ⟨Entry.mk nm0 fp i (.Directory cs) :: l2,
        by simp [create_at_list, h, hrecCs, hCA],
        by simp [find_ino_mut_list, h, hFc, hFm], ?_⟩
      have hL : inodesL (Entry.mk nm0 fp i (.Directory cs) :: l2)
          = i :: (inodesL cs ++ inodesL l2) := by simp [inodesL]
      have hR : inodesL (Entry.mk nm0 fp i (.Directory cs) :: es)
          = i :: (inodesL cs ++ inodesL es) := by simp [inodesL]
      rw [hL, hR]
      have h1 : (inodesL cs ++ inodesL l2).Perm
          (n :: (inodesL cs ++ inodesL es)) :=
        (hPerm.append_left (inodesL cs)).trans List.perm_middle
      exact (h1.cons i).trans (List.Perm.swap n i _)
theorem create_at_spec (e : Entry) (ino n : Nat) (nm : String) :
    (e.find_ino_mut ino = none → e.create_at ino n nm = .notFound)
      ∧ (∀ f sz, e.find_ino_mut ino = some f → f.info = .File sz →
          e.create_at ino n nm = .isFile)
      ∧ (∀ f cs0, e.find_ino_mut ino = some f → f.info = .Directory cs0 →
          ∃ e', e.create_at ino n nm = .ok e'
            ∧ e'.find_ino_mut ino
                = some (.mk f.name f.full_path f.inode
                    (.Directory (cs0 ++ [newFileEntry n nm])))
            ∧ (e'.inodes).Perm (n :: e.inodes)) := by
  obtain ⟨nm0, fp, i, inf⟩ := e
  by_cases h : (i == ino) = true
  · cases inf with
    | File sz =>
      refine ⟨?_, ?_, ?_⟩
      · intro hf
        simp [Entry.find_ino_mut, h] at hf
      · intro f sz' hf hinf
        simp [Entry.create_at, h]
      · intro f cs0 hf hinf
        have hf' : f = Entry.mk nm0 fp i (.File sz) := by
          simpa [Entry.find_ino_mut, h] using hf.symm
        subst hf'
        simp at hinf
    | Directory cs =>
      refine ⟨?_, ?_, ?_⟩
      · intro hf
        simp [Entry.find_ino_mut, h] at hf
      · intro f sz' hf hinf
        have hf' : f = Entry.mk nm0 fp i (.Directory cs) := by
          simpa [Entry.find_ino_mut, h] using hf.symm
        subst hf'
        simp at hinf
      · intro f cs0 hf hinf
        have hf' : f = Entry.mk nm0 fp i (.Directory cs) := by
          simpa [Entry.find_ino_mut, h] using hf.symm
        subst hf'
        rw [Entry.info_mk] at hinf
        injection hinf with hcs
        subst hcs
        refine ⟨Entry.mk nm0 fp i (.Directory (cs ++ [newFileEntry n nm])),
          by simp [Entry.create_at, h], by simp [Entry.find_ino_mut, h], ?_⟩
        have hL : (Entry.mk nm0 fp i
              (.Directory (cs ++ [newFileEntry n nm]))).inodes
            = i :: (inodesL cs ++ [n]) := by
          simp [Entry.inodes, inodesL_append]
        have hR : (Entry.mk nm0 fp i (.Directory cs)).inodes
            = i :: inodesL cs := by simp [Entry.inodes]
        rw [hL, hR]
        have h1 := perm_insert_inode i n (inodesL cs) []
        simpa using h1
  · cases inf with
    | File sz =>
      refine ⟨?_, ?_, ?_⟩
      · intro hf
        simp [Entry.create_at, h]
      · intro f sz' hf hinf
        simp [Entry.find_ino_mut, h] at hf
      · intro f cs0 hf hinf
        simp [Entry.find_ino_mut, h] at hf
    | Directory cs =>
      have hlist := create_at_list_spec cs ino n nm
      refine ⟨?_, ?_, ?_⟩
      · intro hf
        simp only [Entry.find_ino_mut] at hf
        rw [if_neg (by simpa using h)] at hf
        simp only [Entry.info_mk] at hf
        simp [Entry.create_at, h, hlist.1 hf]
      · intro f sz' hf hinf
        simp only [Entry.find_ino_mut] at hf
        rw [if_neg (by simpa using h)] at hf
        simp only [Entry.info_mk] at hf
        simp [Entry.create_at, h, hlist.2.1 f sz' hf hinf]
      · intro f cs0 hf hinf
        simp only [Entry.find_ino_mut] at hf
        rw [if_neg (by simpa using h)] at hf
        simp only [Entry.info_mk] at hf
        obtain ⟨l', hCA, hFm, hPerm⟩ := hlist.2.2 f cs0 hf hinf
        refine ⟨Entry.mk nm0 fp i (.Directory l'),
          by simp [Entry.create_at, h, hCA],
          by simp [Entry.find_ino_mut, h, hFm], ?_⟩
        have hL : (Entry.mk nm0 fp i (.Directory l')).inodes
            = i :: inodesL l' := by simp [Entry.inodes]
        have hR : (Entry.mk nm0 fp i (.Directory cs)).inodes
            = i :: inodesL cs := by simp [Entry.inodes]
        rw [hL, hR]
        exact (hPerm.cons i).trans (List.Perm.swap n i (inodesL cs))

theorem create_at_ok_perm (e e' : Entry) (ino n : Nat) (nm : String)
    (hok : e.create_at ino n nm = .ok e') :
    (e'.inodes).Perm (n :: e.inodes) := by
  cases hF : e.find_ino_mut ino with
  | none =>
    rw [(create_at_spec e ino n nm).1 hF] at hok
    exact absurd hok (by simp)
  | some f =>
    cases hri : f.info with
    | File sz =>
      rw [(create_at_spec e ino n nm).2.1 f sz hF hri] at hok
      exact absurd hok (by simp)
    | Directory cs0 =>
      obtain ⟨e'', hCA, _, hPerm⟩ :=
        (create_at_spec e ino n nm).2.2 f cs0 hF hri
      obtain rfl : e'' = e' := by
        have h2 := hCA.symm.trans hok
        simpa using h2
      exact hPerm

theorem build_directory_bounds (t : List DiskTree) (c : Nat) :
    c ≤ (Entry.build_directory t c).2
      ∧ (∀ x ∈ inodesL (Entry.build_directory t c).1,
          c ≤ x ∧ x < (Entry.build_directory t c).2)
      ∧ (inodesL (Entry.build_directory t c).1).Nodup := by
  induction t, c using Entry.build_directory.induct with
  | case1 c =>
    simp [Entry.build_directory, inodesL]
  | case2 c nm p sz rest es c' hb ih =>
    rw [hb] at ih
    have hbuild : Entry.build_directory (DiskTree.file nm p sz :: rest) c
        = (Entry.mk nm (.FilePath p) c (.File sz) :: es, c') := by
      simp [Entry.build_directory, hb]
    rw [hbuild]
    simp only [inodesL]
    refine ⟨by omega, ?_, ?_⟩
    · intro x hx
      rcases List.mem_cons.mp hx with rfl | hx
      · have := ih.1
        omega
      · have := (ih.2.1 x hx)
        omega
    · rw [List.nodup_cons]
      refine ⟨fun hmem => ?_, ih.2.2⟩
      have := (ih.2.1 c hmem).1
      omega
  | case3 c nm p subs rest subEs c1 hbSub es c2 hbRest ihSub ihRest =>
    rw [hbSub] at ihSub
    rw [hbRest] at ihRest
    have hbuild : Entry.build_directory (DiskTree.dir nm p subs :: rest) c
        = (Entry.mk nm (.FilePath p) c1 (.Directory subEs) :: es, c2) := by
      simp [Entry.build_directory, hbSub, hbRest]
    rw [hbuild]
    simp only [inodesL]
    have h1 := ihSub.1
    have h2 := ihRest.1
    refine ⟨by omega, ?_, ?_⟩
    · intro x hx
      rcases List.mem_cons.mp hx with rfl | hx
      · omega
      · rcases List.mem_append.mp hx with hx | hx
        · have := ihSub.2.1 x hx
          omega
        · have := ihRest.2.1 x hx
          omega
    · rw [List.nodup_cons, List.nodup_append]
      refine ⟨fun hmem => ?_, ihSub.2.2, ihRest.2.2, ?_⟩
      · rcases List.mem_append.mp hmem with hx | hx
        · have := ihSub.2.1 c1 hx
          omega
        · have := ihRest.2.1 c1 hx
          omega
      · intro a haSub haRest
        have hs := ihSub.2.1 a haSub
        have hr := ihRest.2.1 a haRest
        omega

/-- The invariant the reachable states keep: every stored inode is strictly
below the shared counter, and the inodes are pairwise distinct. -/
def DirInv (d : Directory) : Prop :=
  (∀ x ∈ d.root.inodes, x < d.inode_ctr) ∧ d.root.inodes.Nodup

theorem reachable_DirInv (d : Directory) (h : Reachable d) : DirInv d := by
  induction h with
  | built dir t =>
    rcases hbuild : Entry.build_directory t 2 with ⟨cs, c2⟩
    have hroot : (Directory.new dir t).root
        = Entry.mk "" (.FilePath dir) 1 (.Directory cs) := by
      simp [Directory.new, Entry.new, hbuild]
    have hctr : (Directory.new dir t).inode_ctr = c2 := by
      simp [Directory.new, Entry.new, hbuild]
    have hbb := build_directory_bounds t 2
    rw [hbuild] at hbb
    constructor
    · intro x hx
      rw [hroot] at hx
      rw [hctr]
      simp only [Entry.inodes] at hx
      rcases List.mem_cons.mp hx with rfl | hx
      · have := hbb.1
        omega
      · have := hbb.2.1 x hx
        omega
    · rw [hroot]
      simp only [Entry.inodes]
      rw [List.nodup_cons]
      refine ⟨fun hmem => ?_, hbb.2.2⟩
      have := (hbb.2.1 1 hmem).1
      omega
  | created d d' parent name e hd hc ih =>
    rcases hres : d.root.create_at parent d.inode_ctr name with _ | _ | root'
    · rw [Directory.create_file, hres] at hc
      exact absurd hc (by simp)
    · rw [Directory.create_file, hres] at hc
      exact absurd hc (by simp)
    · rw [Directory.create_file, hres] at hc
      have hd' : d' = ⟨root', d.inode_ctr + 1⟩ := by
        have h2 := hc.symm
        simp at h2
        exact h2.1
      subst hd'
      have hPerm := create_at_ok_perm d.root root' parent d.inode_ctr name hres
      constructor
      · intro x hx
        have hx' : x ∈ d.inode_ctr :: d.root.inodes := hPerm.mem_iff.mp hx
        rcases List.mem_cons.mp hx' with rfl | hx'
        · simp
        · have := ih.1 x hx'
          simp only []
          omega
      · have hnd : (d.inode_ctr :: d.root.inodes).Nodup := by
          rw [List.nodup_cons]
          refine ⟨fun hmem => ?_, ih.2⟩
          exact absurd (ih.1 _ hmem) (lt_irrefl _)
        exact hPerm.symm.nodup hnd

/-- C5: for every create request with a valid UTF-8 name: if the parent
inode resolves (by the mutable-path resolver `create` uses) to a Directory,
the operation appends a new zero-length in-memory File entry as the last
child — increasing that directory's child count by exactly one — assigns it
the counter value (which is previously unused in every reachable state) and
returns that entry's attributes; if the parent is a File or absent, it fails
with `ENOENT` and leaves the tree unchanged. -/
theorem create_appends_fresh_child (d : Directory) (parent : Nat)
    (nm : String) :
    (∀ f cs, d.root.find_ino_mut parent = some f →
      f.info = .Directory cs →
      ∃ root', FileAccessTrackingFs.create d parent (.utf8 nm)
          = (.created (newFileEntry d.inode_ctr nm).get_fileattr,
             ⟨root', d.inode_ctr + 1⟩)
        ∧ root'.find_ino_mut parent
            = some (.mk f.name f.full_path f.inode
                (.Directory (cs ++ [newFileEntry d.inode_ctr nm])))
        ∧ (cs ++ [newFileEntry d.inode_ctr nm]).length = cs.length + 1
        ∧ root'.inodes.Perm (d.inode_ctr :: d.root.inodes))
      ∧ (∀ f sz, d.root.find_ino_mut parent = some f → f.info = .File sz →
          FileAccessTrackingFs.create d parent (.utf8 nm) = (.error ENOENT, d))
      ∧ (d.root.find_ino_mut parent = none →
          FileAccessTrackingFs.create d parent (.utf8 nm) = (.error ENOENT, d))
      ∧ (Reachable d → d.inode_ctr ∉ d.root.inodes) := by
  refine ⟨?_, ?_, ?_, ?_⟩
  · intro f cs hF hinf
    obtain ⟨e', hCA, hFm, hPerm⟩ :=
      (create_at_spec d.root parent d.inode_ctr nm).2.2 f cs hF hinf
    refine ⟨e', ?_, hFm, by simp, hPerm⟩
    simp [FileAccessTrackingFs.create, OsStrArg.to_str, Directory.create_file,
      hCA]
  · intro f sz hF hinf
    have hCA := (create_at_spec d.root parent d.inode_ctr nm).2.1 f sz hF hinf
    simp [FileAccessTrackingFs.create, OsStrArg.to_str, Directory.create_file,
      hCA]
  · intro hF
    have hCA := (create_at_spec d.root parent d.inode_ctr nm).1 hF
    simp [FileAccessTrackingFs.create, OsStrArg.to_str, Directory.create_file,
      hCA]
  · intro hreach hmem
    exact absurd ((reachable_DirInv d hreach).1 _ hmem) (lt_irrefl _)

/-- The tree built from a one-file source directory, as `Directory::new`
produces it. -/
def dirNew : Directory := Directory.new "/src" [.file "a.txt" "/src/a.txt" 4]

/-- Witness for C5: creating under a File parent fails and leaves the tree
unchanged. -/
theorem create_appends_fresh_child_witness :
    FileAccessTrackingFs.create dirNew 2 (.utf8 "x.txt")
      = (.error ENOENT, dirNew) :=
  (create_appends_fresh_child dirNew 2 "x.txt").2.1
    (Entry.mk "a.txt" (.FilePath "/src/a.txt") 2 (.File 4)) 4
    (by simp [dirNew, Directory.new, Entry.new, Entry.build_directory,
      Entry.find_ino_mut, find_ino_mut_list])
    rfl

/-- C8: in every state reachable by building the tree and then performing
any sequence of create operations, every inode value occurs on at most one
Entry in the whole tree. -/
theorem inode_uniqueness (d : Directory) (h : Reachable d) (x : Nat) :
    (d.root.inodes).count x ≤ 1 :=
  List.nodup_iff_count_le_one.mp (reachable_DirInv d h).2 x

/-- Witness for C8, on a built-then-mutated state. -/
theorem inode_uniqueness_witness :
    (dirNew.root.inodes).count 2 ≤ 1 :=
  inode_uniqueness dirNew
    (Reachable.built "/src" [.file "a.txt" "/src/a.txt" 4]) 2
